import Mathlib

/-!
Shallow embedding of `src/bufpool.rs` (memalloc-bench): the `Buffer`
capability with its four implementations, the `Resize` wrapper, and the
slab + free-list `BufferPool` (variant B) together with a trace semantics
for finite sequences of `lease()` / lease-drop operations.

Bytes (`u8`) are modelled as `Nat`; the pool logic never inspects byte
values.  `usize::MAX` is the constant `FREE_LIST_END`.  Rust slab indexing
(`entries[idx]`), which panics when out of bounds, is modelled by
`List.getElem?`, with `none` standing for the panic.  The allocator
(`BufferAllocator::allocate`, which takes `&self` and may carry interior
state) is modelled as a pure function of its invocation count; the pool
state carries the count `allocCalls` of invocations made so far.
-/

namespace Bufpool

/-- The `Buffer` trait: `size` and `reset`.  The raw-pointer accessor `ptr`
(a machine address) is not modelled.  The Rust trait's default `reset` body
is empty, i.e. the identity. -/
class Buffer (B : Type) where
  size : B → Nat
  reset : B → B := fun b => b

/-- Rust `[u8; N]`: a fixed-size byte array.  `size` returns `N`; `reset`
is a no-op. -/
structure ArrayU8 (N : Nat) where
  data : List Nat
  hlen : data.length = N

instance instBufferArrayU8 (N : Nat) : Buffer (ArrayU8 N) where
  size _ := N
  reset a := a

/-- Rust `Vec<u8>`: a growable byte vector.  `size` returns `self.len()`;
`reset` is `self.clear()` (capacity retention is not observable here). -/
structure VecU8 where
  data : List Nat
deriving DecidableEq

instance instBufferVecU8 : Buffer VecU8 where
  size v := v.data.length
  reset _ := { data := [] }

/-- Rust `Box<[u8]>`: a boxed byte slice.  `size` returns `self.len()`;
`reset` is a no-op. -/
structure BoxU8 where
  data : List Nat
deriving DecidableEq

instance instBufferBoxU8 : Buffer BoxU8 where
  size b := b.data.length
  reset b := b

/-- Rust `Resize<B>`: an inner buffer viewed with a clamped logical
length. -/
structure Resize (B : Type) where
  buf : B
  len : Nat

/-- The `Buffer` impl for `Resize<B>`: `size` returns the clamped length
`self.len`; `reset` forwards to the inner buffer's `reset` and does not
touch `self.len`. -/
instance instBufferResize (B : Type) [Buffer B] : Buffer (Resize B) where
  size r := r.len
  reset r := { r with buf := Buffer.reset r.buf }

/-- `Resize::new`: the clamped length starts at the inner buffer's size. -/
def Resize.new {B : Type} [Buffer B] (buf : B) : Resize B :=
  { buf := buf, len := Buffer.size buf }

/-- `Resize::new_with_size`: the clamped length is `buf.size().min(len)`. -/
def Resize.new_with_size {B : Type} [Buffer B] (buf : B) (len : Nat) : Resize B :=
  { buf := buf, len := Nat.min (Buffer.size buf) len }

/-- `Resize::resize`: `self.len = self.len.min(len)`. -/
def Resize.resize {B : Type} (r : Resize B) (len : Nat) : Resize B :=
  { r with len := Nat.min r.len len }

/-- `FREE_LIST_END`, i.e. `usize::MAX` on a 64-bit target. -/
def FREE_LIST_END : Nat := 2 ^ 64 - 1

/-- One slab slot (`Entry<T>`): the buffer and the next-free link
(`FREE_LIST_END` when used or at the end of the free list). -/
structure Entry (T : Type) where
  buffer : T
  next_free : Nat
deriving DecidableEq

/-- The pool state (`PoolInner`): the entries vector and the free-list
head.  The `allocator` field is modelled externally (see `lease`); in its
place `allocCalls` counts the `allocate` invocations made so far, so that
a stateful-by-interior-mutability allocator can be modelled as a pure
function of the invocation count. -/
structure PoolState (T : Type) where
  entries : List (Entry T)
  free_head : Nat
  allocCalls : Nat
deriving DecidableEq

/-- `BufferPool::new`: empty entries vector, free list empty. -/
def PoolState.new (T : Type) : PoolState T :=
  { entries := [], free_head := FREE_LIST_END, allocCalls := 0 }

/-- `BufferPool::lease`.  `A n` is the allocator's result on its `n`-th
invocation.  Returns `none` for the out-of-bounds panic in
`inner.entries[idx]`; otherwise returns the new pool state together with
either the propagated allocator error or the index of the leased entry. -/
def lease {T E : Type} (A : Nat → Except E T) (p : PoolState T) :
    Option (PoolState T × Except E Nat) :=
  if p.free_head ≠ FREE_LIST_END then
    match p.entries[p.free_head]? with
    | none => none
    | some e =>
        some ({ p with
                  free_head := e.next_free,
                  entries := p.entries.set p.free_head { e with next_free := FREE_LIST_END } },
              Except.ok p.free_head)
  else
    match A p.allocCalls with
    | Except.error err =>
        some ({ p with allocCalls := p.allocCalls + 1 }, Except.error err)
    | Except.ok buf =>
        some ({ entries := p.entries ++ [{ buffer := buf, next_free := FREE_LIST_END }],
                free_head := p.free_head,
                allocCalls := p.allocCalls + 1 },
              Except.ok p.entries.length)

/-- `Lease::drop` for a lease holding index `i`: thread the entry back on
the head of the free list, keeping its buffer.  `none` models the
out-of-bounds panic in `inner.entries[self.index]`. -/
def leaseDrop {T : Type} (p : PoolState T) (i : Nat) : Option (PoolState T) :=
  match p.entries[i]? with
  | none => none
  | some e =>
      some { p with
               entries := p.entries.set i { e with next_free := p.free_head },
               free_head := i }

/-- `Deref`/`DerefMut` for `Lease`: the buffer of the entry at index `i`;
`none` models the out-of-bounds panic. -/
def bufferAt {T : Type} (p : PoolState T) (i : Nat) : Option T :=
  (p.entries[i]?).map Entry.buffer

/-- The next-free link of the entry at index `i` (observer used to state
the used-entry sentinel invariant). -/
def nextFreeAt {T : Type} (p : PoolState T) (i : Nat) : Option Nat :=
  (p.entries[i]?).map Entry.next_free

/-- A trace operation on the pool: acquire a fresh lease, or drop the live
lease holding slab index `i`. -/
inductive Op where
  | acquire : Op
  | release : Nat → Op
deriving DecidableEq

/-- A run state: the pool plus bookkeeping of the trace — the indices held
by live leases (most recent first), the indices issued by successful
acquires in order, and the high-water mark of simultaneously live
leases. -/
structure RunState (T : Type) where
  pool : PoolState T
  live : List Nat
  issued : List Nat
  hiWater : Nat
deriving DecidableEq

/-- The initial run state over a fresh pool. -/
def initState (T : Type) : RunState T :=
  { pool := PoolState.new T, live := [], issued := [], hiWater := 0 }

/-- One trace step.  `Op.acquire` runs `lease` (an allocator error creates
no lease); `Op.release i` requires a live lease holding `i` (a well-formed
trace drops only live leases) and runs `Lease::drop`.  `none` is a panic
or an ill-formed trace. -/
def step {T E : Type} (A : Nat → Except E T) (s : RunState T) : Op → Option (RunState T)
  | Op.acquire =>
    match lease A s.pool with
    | none => none
    | some (p, Except.error _) => some { s with pool := p }
    | some (p, Except.ok idx) =>
        some { pool := p, live := idx :: s.live, issued := s.issued ++ [idx],
               hiWater := Nat.max s.hiWater (s.live.length + 1) }
  | Op.release i =>
    if i ∈ s.live then
      match leaseDrop s.pool i with
      | none => none
      | some p => some { s with pool := p, live := s.live.erase i }
    else none

/-- Run a list of trace operations from a given state. -/
def runFrom {T E : Type} (A : Nat → Except E T) : RunState T → List Op → Option (RunState T)
  | s, [] => some s
  | s, op :: ops =>
    match step A s op with
    | none => none
    | some s1 => runFrom A s1 ops

/-- Run a list of trace operations from the initial state. -/
def run {T E : Type} (A : Nat → Except E T) (ops : List Op) : Option (RunState T) :=
  runFrom A (initState T) ops

/-- Walk the free list from head `h` with explicit fuel, collecting the
visited indices.  `none` when a link is out of range or the sentinel is
not reached within the fuel (in particular on any cyclic list, taking the
fuel to be `entries.length`). -/
def walkFree {T : Type} (entries : List (Entry T)) : Nat → Nat → Option (List Nat)
  | 0, h => if h = FREE_LIST_END then some [] else none
  | fuel + 1, h =>
    if h = FREE_LIST_END then some []
    else
      (entries[h]?).bind fun e =>
        (walkFree entries fuel e.next_free).map fun l => h :: l

/-- The free list of a pool state: the walk from `free_head` with fuel
`entries.length` (enough fuel for any acyclic in-bounds list). -/
def freeList {T : Type} (p : PoolState T) : Option (List Nat) :=
  walkFree p.entries p.entries.length p.free_head

/-- Free-list integrity of a pool state w.r.t. the indices `live` held by
live leases: the walk from `free_head` reaches the sentinel (finite,
acyclic), visits no duplicate and no out-of-range index, and visits
exactly the indices of entries not governed by a live lease; moreover at
most one live lease governs any index. -/
def FreeListInv {T : Type} (p : PoolState T) (live : List Nat) : Prop :=
  match freeList p with
  | none => False
  | some l =>
      l.Nodup ∧ (∀ i ∈ l, i < p.entries.length) ∧
        (∀ i, i < p.entries.length → (i ∈ l ↔ i ∉ live)) ∧ live.Nodup

/-! ### Concrete allocators and traces -/

/-- An always-successful allocator handing out its invocation count as the
buffer, so buffer identity is creation rank. -/
def Aok : Nat → Except Unit Nat := fun n => Except.ok n

/-- A capacity-3 allocator: succeeds on its first three invocations and
fails afterwards. -/
def A3 : Nat → Except Unit Nat :=
  fun n => if n < 3 then Except.ok n else Except.error ()

/-- The concrete scenario: acquire A, acquire B, release A, acquire C,
release B, release C.  A receives slab index 0 and B index 1, so the three
releases drop indices 0 (A), 1 (B) and 0 (C). -/
def scenarioOps : List Op :=
  [Op.acquire, Op.acquire, Op.release 0, Op.acquire, Op.release 1, Op.release 0]

/-- A fixed-capacity-10 byte buffer (all zeroes), used by the concrete
`Resize` ratchet scenario. -/
def cap10 : BoxU8 := { data := List.replicate 10 0 }

/-- Modelled from the spec: variant A (shared ownership, weak tracking) is
described in the spec but its source is not under `src/`; only variant B
is.  The pool state of variant A: the allocator reference plus an idle
stack of buffers (LIFO). -/
structure PoolAState (T : Type) where
  idle : List T
deriving DecidableEq

/-- Modelled from the spec: variant A `lease()` — pop the idle stack if
non-empty (LIFO); otherwise invoke the allocator (`alloc` is its result)
and propagate its error untouched, mutating no state on failure.  The
returned lease owns the buffer value directly. -/
def leaseA {T E : Type} (alloc : Except E T) (st : PoolAState T) :
    Except E (PoolAState T × T) :=
  match st.idle with
  | b :: rest => Except.ok ({ idle := rest }, b)
  | [] =>
    match alloc with
    | Except.error e => Except.error e
    | Except.ok b => Except.ok (st, b)

/-- Modelled from the spec: variant A lease destruction — resolve the weak
back-reference to the shared pool state (`some` while any strong owner is
alive, `none` after all pool handles are dropped); if alive, push the
buffer onto the idle stack; if dead, the buffer is finalized normally: no
recycling, no error.  The function is total: release always succeeds. -/
def leaseDropA {T : Type} (b : T) (w : Option (PoolAState T)) : Option (PoolAState T) :=
  match w with
  | some st => some { idle := b :: st.idle }
  | none => none

/-- The trace acquire, acquire, release 0, acquire, used by concrete
witness states. -/
def opsW : List Op := [Op.acquire, Op.acquire, Op.release 0, Op.acquire]

/-- The run state reached by `opsW` under `Aok`. -/
def sW : RunState Nat := (run Aok opsW).getD (initState Nat)

/-- A one-entry run state with buffer 5 live under index 0, used by
concrete witness states. -/
def oneLive : RunState Nat :=
  { pool := { entries := [{ buffer := 5, next_free := FREE_LIST_END }],
              free_head := FREE_LIST_END, allocCalls := 1 },
    live := [0], issued := [0], hiWater := 1 }

/-- The run state reached from `oneLive` by release 0 then acquire. -/
def s7 : RunState Nat :=
  (runFrom Aok oneLive [Op.release 0, Op.acquire]).getD (initState Nat)

/-! ### Lemmas -/

/-! ### Lemmas about the free-list walk -/

theorem walkFree_end {T : Type} (entries : List (Entry T)) (fuel : Nat) :
    walkFree entries fuel FREE_LIST_END = some [] := by
  cases fuel <;> simp [walkFree]

theorem walkFree_zero_ne {T : Type} (entries : List (Entry T)) {h : Nat}
    (hne : h ≠ FREE_LIST_END) : walkFree entries 0 h = none := by
  simp [walkFree, hne]

theorem walkFree_succ_ne {T : Type} (entries : List (Entry T)) (fuel : Nat) {h : Nat}
    (hne : h ≠ FREE_LIST_END) :
    walkFree entries (fuel + 1) h =
      (entries[h]?).bind fun e =>
        (walkFree entries fuel e.next_free).map fun l => h :: l := by
  simp [walkFree, hne]

theorem walkFree_end_of_mem {T : Type} (entries : List (Entry T)) :
    ∀ fuel h l, walkFree entries fuel h = some l → ∀ i ∈ l, i ≠ FREE_LIST_END := by
  intro fuel
  induction fuel with
  | zero =>
    intro h l hw i hi
    by_cases hne : h = FREE_LIST_END
    · subst hne; rw [walkFree_end] at hw; cases hw; simp at hi
    · rw [walkFree_zero_ne entries hne] at hw; cases hw
  | succ f ih =>
    intro h l hw i hi
    by_cases hne : h = FREE_LIST_END
    · subst hne; rw [walkFree_end] at hw; cases hw; simp at hi
    · rw [walkFree_succ_ne entries f hne] at hw
      cases hg : entries[h]? with
      | none => rw [hg] at hw; cases hw
      | some e =>
        rw [hg] at hw
        simp only [Option.some_bind] at hw
        cases hw2 : walkFree entries f e.next_free with
        | none => rw [hw2] at hw; exact absurd hw (by simp)
        | some l2 =>
          rw [hw2] at hw
          simp only [Option.map_some'] at hw
          cases hw
          rcases List.mem_cons.mp hi with hi | hi
          · subst hi; exact hne
          · exact ih e.next_free l2 hw2 i hi

theorem walkFree_mem_lt {T : Type} (entries : List (Entry T)) :
    ∀ fuel h l, walkFree entries fuel h = some l → ∀ i ∈ l, i < entries.length := by
  intro fuel
  induction fuel with
  | zero =>
    intro h l hw i hi
    by_cases hne : h = FREE_LIST_END
    · subst hne; rw [walkFree_end] at hw; cases hw; simp at hi
    · rw [walkFree_zero_ne entries hne] at hw; cases hw
  | succ f ih =>
    intro h l hw i hi
    by_cases hne : h = FREE_LIST_END
    · subst hne; rw [walkFree_end] at hw; cases hw; simp at hi
    · rw [walkFree_succ_ne entries f hne] at hw
      cases hg : entries[h]? with
      | none => rw [hg] at hw; cases hw
      | some e =>
        rw [hg] at hw
        simp only [Option.some_bind] at hw
        cases hw2 : walkFree entries f e.next_free with
        | none => rw [hw2] at hw; exact absurd hw (by simp)
        | some l2 =>
          rw [hw2] at hw
          simp only [Option.map_some'] at hw
          cases hw
          rcases List.mem_cons.mp hi with hi | hi
          · subst hi
            exact (List.getElem?_eq_some_iff.mp hg).1
          · exact ih e.next_free l2 hw2 i hi

theorem walkFree_mono {T : Type} (entries : List (Entry T)) :
    ∀ fuel fuel' h l, walkFree entries fuel h = some l → fuel ≤ fuel' →
      walkFree entries fuel' h = some l := by
  intro fuel
  induction fuel with
  | zero =>
    intro fuel' h l hw _
    by_cases hne : h = FREE_LIST_END
    · subst hne; rw [walkFree_end] at hw; cases hw; exact walkFree_end entries fuel'
    · rw [walkFree_zero_ne entries hne] at hw; cases hw
  | succ f ih =>
    intro fuel' h l hw hle
    by_cases hne : h = FREE_LIST_END
    · subst hne; rw [walkFree_end] at hw; cases hw; exact walkFree_end entries fuel'
    · rw [walkFree_succ_ne entries f hne] at hw
      cases hg : entries[h]? with
      | none => rw [hg] at hw; cases hw
      | some e =>
        rw [hg] at hw
        simp only [Option.some_bind] at hw
        cases hw2 : walkFree entries f e.next_free with
        | none => rw [hw2] at hw; exact absurd hw (by simp)
        | some l2 =>
          rw [hw2] at hw
          simp only [Option.map_some'] at hw
          cases hw
          cases fuel' with
          | zero => omega
          | succ f2 =>
            rw [walkFree_succ_ne entries f2 hne, hg]
            simp only [Option.some_bind]
            rw [ih f2 e.next_free l2 hw2 (Nat.le_of_succ_le_succ hle)]
            rfl

theorem walkFree_min_fuel {T : Type} (entries : List (Entry T)) :
    ∀ fuel h l, walkFree entries fuel h = some l → walkFree entries l.length h = some l := by
  intro fuel
  induction fuel with
  | zero =>
    intro h l hw
    by_cases hne : h = FREE_LIST_END
    · subst hne; rw [walkFree_end] at hw; cases hw; exact walkFree_end entries 0
    · rw [walkFree_zero_ne entries hne] at hw; cases hw
  | succ f ih =>
    intro h l hw
    by_cases hne : h = FREE_LIST_END
    · subst hne; rw [walkFree_end] at hw; cases hw; exact walkFree_end entries 0
    · rw [walkFree_succ_ne entries f hne] at hw
      cases hg : entries[h]? with
      | none => rw [hg] at hw; cases hw
      | some e =>
        rw [hg] at hw
        simp only [Option.some_bind] at hw
        cases hw2 : walkFree entries f e.next_free with
        | none => rw [hw2] at hw; exact absurd hw (by simp)
        | some l2 =>
          rw [hw2] at hw
          simp only [Option.map_some'] at hw
          cases hw
          rw [List.length_cons, walkFree_succ_ne entries l2.length hne, hg]
          simp only [Option.some_bind]
          rw [ih e.next_free l2 hw2]
          rfl

theorem walkFree_set_not_mem {T : Type} (entries : List (Entry T)) (j : Nat) (x : Entry T) :
    ∀ fuel h l, walkFree entries fuel h = some l → j ∉ l →
      walkFree (entries.set j x) fuel h = some l := by
  intro fuel
  induction fuel with
  | zero =>
    intro h l hw _
    by_cases hne : h = FREE_LIST_END
    · subst hne; rw [walkFree_end] at hw; cases hw; exact walkFree_end _ 0
    · rw [walkFree_zero_ne entries hne] at hw; cases hw
  | succ f ih =>
    intro h l hw hj
    by_cases hne : h = FREE_LIST_END
    · subst hne; rw [walkFree_end] at hw; cases hw; exact walkFree_end _ (f + 1)
    · rw [walkFree_succ_ne entries f hne] at hw
      cases hg : entries[h]? with
      | none => rw [hg] at hw; cases hw
      | some e =>
        rw [hg] at hw
        simp only [Option.some_bind] at hw
        cases hw2 : walkFree entries f e.next_free with
        | none => rw [hw2] at hw; exact absurd hw (by simp)
        | some l2 =>
          rw [hw2] at hw
          simp only [Option.map_some'] at hw
          cases hw
          have hjh : j ≠ h := fun hc => hj (hc ▸ List.mem_cons_self h l2)
          have hj2 : j ∉ l2 := fun hc => hj (List.mem_cons_of_mem h hc)
          rw [walkFree_succ_ne _ f hne, List.getElem?_set_ne hjh, hg]
          simp only [Option.some_bind]
          rw [ih e.next_free l2 hw2 hj2]
          rfl

theorem walkFree_append {T : Type} (entries more : List (Entry T)) :
    ∀ fuel h l, walkFree entries fuel h = some l →
      walkFree (entries ++ more) fuel h = some l := by
  intro fuel
  induction fuel with
  | zero =>
    intro h l hw
    by_cases hne : h = FREE_LIST_END
    · subst hne; rw [walkFree_end] at hw; cases hw; exact walkFree_end _ 0
    · rw [walkFree_zero_ne entries hne] at hw; cases hw
  | succ f ih =>
    intro h l hw
    by_cases hne : h = FREE_LIST_END
    · subst hne; rw [walkFree_end] at hw; cases hw; exact walkFree_end _ (f + 1)
    · rw [walkFree_succ_ne entries f hne] at hw
      cases hg : entries[h]? with
      | none => rw [hg] at hw; cases hw
      | some e =>
        rw [hg] at hw
        simp only [Option.some_bind] at hw
        cases hw2 : walkFree entries f e.next_free with
        | none => rw [hw2] at hw; exact absurd hw (by simp)
        | some l2 =>
          rw [hw2] at hw
          simp only [Option.map_some'] at hw
          cases hw
          have hlt : h < entries.length := (List.getElem?_eq_some_iff.mp hg).1
          rw [walkFree_succ_ne _ f hne, List.getElem?_append_left hlt, hg]
          simp only [Option.some_bind]
          rw [ih e.next_free l2 hw2]
          rfl

/-! ### Cardinality helpers for lists of indices -/

theorem nodup_length_le {l : List Nat} {n : Nat} (hd : l.Nodup) (hlt : ∀ i ∈ l, i < n) :
    l.length ≤ n := by
  have hsub : l ⊆ List.range n := fun i hi => List.mem_range.mpr (hlt i hi)
  have := (List.subperm_of_subset hd hsub).length_le
  simpa using this

theorem nodup_length_lt {l : List Nat} {n j : Nat} (hd : l.Nodup) (hlt : ∀ i ∈ l, i < n)
    (hj : j < n) (hjl : j ∉ l) : l.length < n := by
  have hjr : j ∈ List.range n := List.mem_range.mpr hj
  have hsub : l ⊆ (List.range n).erase j := by
    intro i hi
    refine ((List.nodup_range n).mem_erase_iff).mpr ⟨fun hc => hjl (hc ▸ hi), ?_⟩
    exact List.mem_range.mpr (hlt i hi)
  have h1 := (List.subperm_of_subset hd hsub).length_le
  rw [List.length_erase_of_mem hjr, List.length_range] at h1
  omega

theorem nodup_length_eq {l : List Nat} {n : Nat} (hd : l.Nodup) (hlt : ∀ i ∈ l, i < n)
    (hall : ∀ i, i < n → i ∈ l) : l.length = n := by
  have h1 := nodup_length_le hd hlt
  have hsub : List.range n ⊆ l := fun i hi => hall i (List.mem_range.mp hi)
  have h2 := (List.subperm_of_subset (List.nodup_range n) hsub).length_le
  rw [List.length_range] at h2
  omega

/-! ### Characterizations of `lease` and `leaseDrop` -/

theorem lease_free_branch {T E : Type} (A : Nat → Except E T) (p : PoolState T) (e : Entry T)
    (hfh : p.free_head ≠ FREE_LIST_END) (hg : p.entries[p.free_head]? = some e) :
    lease A p = some ({ p with
        free_head := e.next_free,
        entries := p.entries.set p.free_head { e with next_free := FREE_LIST_END } },
      Except.ok p.free_head) := by
  simp [lease, hfh, hg]

theorem lease_alloc_error {T E : Type} (A : Nat → Except E T) (p : PoolState T) (err : E)
    (hfh : p.free_head = FREE_LIST_END) (hA : A p.allocCalls = Except.error err) :
    lease A p = some ({ p with allocCalls := p.allocCalls + 1 }, Except.error err) := by
  simp [lease, hfh, hA]

theorem lease_alloc_ok {T E : Type} (A : Nat → Except E T) (p : PoolState T) (buf : T)
    (hfh : p.free_head = FREE_LIST_END) (hA : A p.allocCalls = Except.ok buf) :
    lease A p =
      some ({ entries := p.entries ++ [{ buffer := buf, next_free := FREE_LIST_END }],
              free_head := p.free_head,
              allocCalls := p.allocCalls + 1 },
            Except.ok p.entries.length) := by
  simp [lease, hfh, hA]

theorem leaseDrop_some {T : Type} (p : PoolState T) (i : Nat) (e : Entry T)
    (hg : p.entries[i]? = some e) :
    leaseDrop p i = some { p with
        entries := p.entries.set i { e with next_free := p.free_head },
        free_head := i } := by
  simp [leaseDrop, hg]

/-! ### The reachable-state invariant -/

/-- The invariant maintained by every trace step: the free-list walk
reaches the sentinel and visits exactly the non-live indices with no
duplicates and no out-of-range links; live indices are distinct and in
bounds; every live entry's link is the sentinel. -/
structure Inv {T : Type} (s : RunState T) : Prop where
  free_some : ∃ l, freeList s.pool = some l ∧ l.Nodup ∧
    (∀ i ∈ l, i < s.pool.entries.length) ∧
    (∀ i, i < s.pool.entries.length → (i ∈ l ↔ i ∉ s.live))
  live_nodup : s.live.Nodup
  live_lt : ∀ i ∈ s.live, i < s.pool.entries.length
  live_sentinel : ∀ i ∈ s.live, nextFreeAt s.pool i = some FREE_LIST_END

theorem inv_init (T : Type) : Inv (initState T) := by
  refine ⟨⟨[], ?_, ?_, ?_, ?_⟩, ?_, ?_, ?_⟩
  · exact walkFree_end _ 0
  · simp
  · simp
  · intro i hi
    simp [initState, PoolState.new] at hi
  · simp [initState]
  · intro i hi
    simp [initState] at hi
  · intro i hi
    simp [initState] at hi

theorem step_inv {T E : Type} (A : Nat → Except E T) (s s' : RunState T) (op : Op)
    (hInv : Inv s) (hlen : s.pool.entries.length < FREE_LIST_END)
    (hstep : step A s op = some s') :
    Inv s' ∧ s'.pool.entries.length ≤ s.pool.entries.length + 1 := by
  obtain ⟨⟨l, hfl, hnd, hlt, hiff⟩, hlnd, hllt, hsent⟩ := hInv
  cases op with
  | acquire =>
    by_cases hfh : s.pool.free_head = FREE_LIST_END
    · -- the free list is empty: the allocator is invoked
      have hl0 : l = [] := by
        simp only [freeList, hfh, walkFree_end] at hfl
        exact (Option.some.injEq _ _ ▸ hfl).symm
      subst hl0
      cases hA : A s.pool.allocCalls with
      | error err =>
        rw [step, lease_alloc_error A s.pool err hfh hA] at hstep
        simp only [Option.some.injEq] at hstep
        subst hstep
        refine ⟨⟨⟨[], ?_, by simp, by simp, ?_⟩, hlnd, hllt, hsent⟩, Nat.le_succ _⟩
        · exact hfl
        · exact hiff
      | ok buf =>
        rw [step, lease_alloc_ok A s.pool buf hfh hA] at hstep
        simp only [Option.some.injEq] at hstep
        subst hstep
        have hlenapp :
            (s.pool.entries ++ [Entry.mk buf FREE_LIST_END]).length
              = s.pool.entries.length + 1 := by simp
        refine ⟨⟨⟨[], ?_, by simp, by simp, ?_⟩, ?_, ?_, ?_⟩, by simp⟩
        · show walkFree _ _ s.pool.free_head = some []
          rw [hfh, walkFree_end]
        · intro i hilt
          rw [hlenapp] at hilt
          refine iff_of_false (by simp) ?_
          simp only [not_not, List.mem_cons]
          by_cases hc : i = s.pool.entries.length
          · exact Or.inl hc
          · have hlt2 : i < s.pool.entries.length := by omega
            refine Or.inr ?_
            by_contra hq
            exact List.not_mem_nil i ((hiff i hlt2).mpr hq)
        · refine List.nodup_cons.mpr ⟨?_, hlnd⟩
          intro hc
          exact absurd (hllt _ hc) (by omega)
        · intro i hi
          rw [hlenapp]
          rcases List.mem_cons.mp hi with hi | hi
          · omega
          · have := hllt i hi; omega
        · intro i hi
          rcases List.mem_cons.mp hi with hi | hi
          · subst hi
            show ((s.pool.entries ++ _)[s.pool.entries.length]?).map _ = _
            rw [List.getElem?_concat_length]
            rfl
          · have hilt := hllt i hi
            show ((s.pool.entries ++ _)[i]?).map _ = _
            rw [List.getElem?_append_left hilt]
            exact hsent i hi
    · -- the free list is non-empty: pop its head
      have hfl' := hfl
      simp only [freeList] at hfl'
      rcases hL : s.pool.entries.length with _ | k
      · rw [hL, walkFree_zero_ne _ hfh] at hfl'
        cases hfl'
      · rw [hL, walkFree_succ_ne _ k hfh] at hfl'
        cases hg : s.pool.entries[s.pool.free_head]? with
        | none =>
          rw [hg] at hfl'
          exact absurd hfl' (by simp)
        | some e =>
          rw [hg] at hfl'
          simp only [Option.some_bind] at hfl'
          cases hw2 : walkFree s.pool.entries k e.next_free with
          | none =>
            rw [hw2] at hfl'
            exact absurd hfl' (by simp)
          | some l2 =>
            rw [hw2] at hfl'
            simp only [Option.map_some', Option.some.injEq] at hfl'
            have hl : l = s.pool.free_head :: l2 := hfl'.symm
            subst hl
            have hfhmem : s.pool.free_head ∈ s.pool.free_head :: l2 := List.mem_cons_self _ _
            have hfhlt : s.pool.free_head < s.pool.entries.length := hlt _ hfhmem
            have hfhnotlive : s.pool.free_head ∉ s.live := (hiff _ hfhlt).mp hfhmem
            have hfhnotl2 : s.pool.free_head ∉ l2 := (List.nodup_cons.mp hnd).1
            rw [step, lease_free_branch A s.pool e hfh hg] at hstep
            simp only [Option.some.injEq] at hstep
            subst hstep
            refine ⟨⟨⟨l2, ?_, (List.nodup_cons.mp hnd).2, ?_, ?_⟩, ?_, ?_, ?_⟩, by simp; omega⟩
            · show walkFree _ _ e.next_free = some l2
              rw [List.length_set, hL]
              exact walkFree_set_not_mem _ _ _ (k + 1) _ _
                (walkFree_mono _ k (k + 1) _ _ hw2 (by omega)) hfhnotl2
            · intro i hi
              rw [List.length_set]
              exact hlt i (List.mem_cons_of_mem _ hi)
            · intro i hilt
              rw [List.length_set] at hilt
              constructor
              · intro hi hmem
                rcases List.mem_cons.mp hmem with hc | hc
                · exact hfhnotl2 (hc ▸ hi)
                · exact ((hiff i hilt).mp (List.mem_cons_of_mem _ hi)) hc
              · intro hni
                have : i ∈ s.pool.free_head :: l2 := by
                  refine (hiff i hilt).mpr ?_
                  intro hc
                  exact hni (List.mem_cons_of_mem _ hc)
                rcases List.mem_cons.mp this with hc | hc
                · exact absurd (hc ▸ List.mem_cons_self s.pool.free_head s.live) hni
                · exact hc
            · exact List.nodup_cons.mpr ⟨hfhnotlive, hlnd⟩
            · intro i hi
              rw [List.length_set]
              rcases List.mem_cons.mp hi with hc | hc
              · exact hc ▸ hfhlt
              · exact hllt i hc
            · intro i hi
              rcases List.mem_cons.mp hi with hc | hc
              · show ((s.pool.entries.set s.pool.free_head _)[i]?).map _ = _
                rw [hc, List.getElem?_set_self hfhlt]
                rfl
              · have hne : s.pool.free_head ≠ i := fun hc2 => hfhnotlive (hc2 ▸ hc)
                show ((s.pool.entries.set s.pool.free_head _)[i]?).map _ = _
                rw [List.getElem?_set_ne hne]
                exact hsent i hc
  | release i =>
    rw [step] at hstep
    split at hstep
    case isFalse => cases hstep
    case isTrue hi =>
      have hilt : i < s.pool.entries.length := hllt i hi
      have hg : s.pool.entries[i]? = some s.pool.entries[i] :=
        List.getElem?_eq_getElem hilt
      rw [leaseDrop_some s.pool i _ hg] at hstep
      simp only [Option.some.injEq] at hstep
      subst hstep
      have hinotl : i ∉ l := fun hc => ((hiff i hilt).mp hc) hi
      have hiend : i ≠ FREE_LIST_END := Nat.ne_of_lt (Nat.lt_of_lt_of_le hilt (Nat.le_of_lt hlen))
      have hllen : l.length < s.pool.entries.length := nodup_length_lt hnd hlt hilt hinotl
      refine ⟨⟨⟨i :: l, ?_, List.nodup_cons.mpr ⟨hinotl, hnd⟩, ?_, ?_⟩, ?_, ?_, ?_⟩, by simp⟩
      · show walkFree _ _ i = some (i :: l)
        rw [List.length_set]
        rcases hL : s.pool.entries.length with _ | k
        · omega
        · rw [walkFree_succ_ne _ k hiend,
            List.getElem?_set_self (by rw [hL] at hilt ⊢; exact hilt)]
          simp only [Option.some_bind]
          have h1 : walkFree s.pool.entries l.length s.pool.free_head = some l := by
            have := hfl
            simp only [freeList] at this
            exact walkFree_min_fuel _ _ _ _ this
          have h2 := walkFree_set_not_mem _ i
            { s.pool.entries[i] with next_free := s.pool.free_head } l.length _ _ h1 hinotl
          rw [walkFree_mono _ l.length k _ _ h2 (by omega)]
          rfl
      · intro j hj
        rw [List.length_set]
        rcases List.mem_cons.mp hj with hc | hc
        · exact hc ▸ hilt
        · exact hlt j hc
      · intro j hjlt
        rw [List.length_set] at hjlt
        by_cases hji : j = i
        · subst hji
          refine iff_of_true (List.mem_cons_self _ _) (hlnd.not_mem_erase)
        · constructor
          · intro hj hc
            have := (hlnd.mem_erase_iff).mp hc
            rcases List.mem_cons.mp hj with hc2 | hc2
            · exact hji hc2
            · exact ((hiff j hjlt).mp hc2) this.2
          · intro hj
            refine List.mem_cons_of_mem _ ((hiff j hjlt).mpr ?_)
            intro hc
            exact hj ((hlnd.mem_erase_iff).mpr ⟨hji, hc⟩)
      · exact hlnd.erase i
      · intro j hj
        rw [List.length_set]
        exact hllt j (List.mem_of_mem_erase hj)
      · intro j hj
        have hjprop := (hlnd.mem_erase_iff).mp hj
        have hne : i ≠ j := fun hc => hjprop.1 hc.symm
        show ((s.pool.entries.set i _)[j]?).map _ = _
        rw [List.getElem?_set_ne hne]
        exact hsent j hjprop.2

theorem runFrom_inv {T E : Type} (A : Nat → Except E T) :
    ∀ (ops : List Op) (s s' : RunState T), Inv s →
      s.pool.entries.length + ops.length ≤ FREE_LIST_END →
      runFrom A s ops = some s' →
      Inv s' ∧ s'.pool.entries.length ≤ s.pool.entries.length + ops.length := by
  intro ops
  induction ops with
  | nil =>
    intro s s' h1 _ h3
    simp only [runFrom, Option.some.injEq] at h3
    subst h3
    exact ⟨h1, by simp⟩
  | cons op ops ih =>
    intro s s' h1 h2 h3
    simp only [runFrom] at h3
    cases hstep : step A s op with
    | none => simp only [hstep] at h3; cases h3
    | some s1 =>
      simp only [hstep] at h3
      have hlt : s.pool.entries.length < FREE_LIST_END := by
        simp only [List.length_cons] at h2
        omega
      obtain ⟨hi1, hle1⟩ := step_inv A s s1 op h1 hlt hstep
      obtain ⟨hi2, hle2⟩ := ih s1 s' hi1 (by simp only [List.length_cons] at h2; omega) h3
      refine ⟨hi2, ?_⟩
      simp only [List.length_cons]
      omega

theorem run_inv {T E : Type} (A : Nat → Except E T) (ops : List Op) (s : RunState T)
    (hops : ops.length ≤ FREE_LIST_END) (hrun : run A ops = some s) :
    Inv s ∧ s.pool.entries.length ≤ ops.length := by
  obtain ⟨h1, h2⟩ := runFrom_inv A ops (initState T) s (inv_init T)
    (by simpa [initState, PoolState.new] using hops) hrun
  exact ⟨h1, by simpa [initState, PoolState.new] using h2⟩

/-- Shape of a non-empty free list in an invariant state: its head is a
valid, not-live index of the entries vector. -/
theorem inv_free_head_shape {T : Type} (s : RunState T) (hInv : Inv s)
    (hfh : s.pool.free_head ≠ FREE_LIST_END) :
    ∃ e, s.pool.entries[s.pool.free_head]? = some e ∧
      s.pool.free_head < s.pool.entries.length ∧
      s.pool.free_head ∉ s.live := by
  obtain ⟨l, hfl, hnd, hlt, hiff⟩ := hInv.free_some
  simp only [freeList] at hfl
  rcases hL : s.pool.entries.length with _ | k
  · rw [hL, walkFree_zero_ne _ hfh] at hfl
    cases hfl
  · rw [hL, walkFree_succ_ne _ k hfh] at hfl
    cases hg : s.pool.entries[s.pool.free_head]? with
    | none =>
      rw [hg] at hfl
      exact absurd hfl (by simp)
    | some e =>
      rw [hg] at hfl
      simp only [Option.some_bind] at hfl
      cases hw2 : walkFree s.pool.entries k e.next_free with
      | none =>
        rw [hw2] at hfl
        exact absurd hfl (by simp)
      | some l2 =>
        rw [hw2] at hfl
        simp only [Option.map_some', Option.some.injEq] at hfl
        subst hfl
        have hfhlt := hlt _ (List.mem_cons_self _ _)
        exact ⟨e, rfl, hL ▸ hfhlt, (hiff _ hfhlt).mp (List.mem_cons_self _ _)⟩

theorem step_count {T E : Type} (A : Nat → Except E T) (s s' : RunState T) (op : Op)
    (hInv : Inv s) (hok : ∀ n, ∃ b, A n = Except.ok b)
    (hstep : step A s op = some s')
    (hc1 : s.pool.allocCalls = s.pool.entries.length)
    (hc2 : s.hiWater = s.pool.entries.length) :
    s'.pool.allocCalls = s'.pool.entries.length ∧ s'.hiWater = s'.pool.entries.length := by
  cases op with
  | acquire =>
    by_cases hfh : s.pool.free_head = FREE_LIST_END
    · obtain ⟨b, hb⟩ := hok s.pool.allocCalls
      rw [step, lease_alloc_ok A s.pool b hfh hb] at hstep
      simp only [Option.some.injEq] at hstep
      subst hstep
      constructor
      · show s.pool.allocCalls + 1 = _
        simp only [List.length_append, List.length_cons, List.length_nil]
        omega
      · have hfull : ∀ i, i < s.pool.entries.length → i ∈ s.live := by
          obtain ⟨l, hfl, _, _, hiff⟩ := hInv.free_some
          have hl0 : l = [] := by
            simp only [freeList, hfh, walkFree_end] at hfl
            exact (Option.some.injEq _ _ ▸ hfl).symm
          subst hl0
          intro i hi
          by_contra hq
          exact List.not_mem_nil i ((hiff i hi).mpr hq)
        have hlivelen : s.live.length = s.pool.entries.length :=
          nodup_length_eq hInv.live_nodup hInv.live_lt hfull
        show Nat.max s.hiWater (s.live.length + 1) = _
        simp only [List.length_append, List.length_cons, List.length_nil]
        rw [hc2, hlivelen]
        exact Nat.max_eq_right (Nat.le_succ _)
    · obtain ⟨e, hg, hfhlt, hfhnl⟩ := inv_free_head_shape s hInv hfh
      rw [step, lease_free_branch A s.pool e hfh hg] at hstep
      simp only [Option.some.injEq] at hstep
      subst hstep
      refine ⟨by simp only [List.length_set]; exact hc1, ?_⟩
      have hlive_lt : s.live.length < s.pool.entries.length :=
        nodup_length_lt hInv.live_nodup hInv.live_lt hfhlt hfhnl
      show Nat.max s.hiWater (s.live.length + 1) = _
      simp only [List.length_set]
      rw [hc2]
      exact Nat.max_eq_left (by omega)
  | release i =>
    rw [step] at hstep
    split at hstep
    case isFalse => cases hstep
    case isTrue hi =>
      have hilt : i < s.pool.entries.length := hInv.live_lt i hi
      have hg : s.pool.entries[i]? = some s.pool.entries[i] := List.getElem?_eq_getElem hilt
      rw [leaseDrop_some s.pool i _ hg] at hstep
      simp only [Option.some.injEq] at hstep
      subst hstep
      exact ⟨by simp only [List.length_set]; exact hc1,
        by simp only [List.length_set]; exact hc2⟩

theorem runFrom_count {T E : Type} (A : Nat → Except E T)
    (hok : ∀ n, ∃ b, A n = Except.ok b) :
    ∀ (ops : List Op) (s s' : RunState T), Inv s →
      s.pool.entries.length + ops.length ≤ FREE_LIST_END →
      s.pool.allocCalls = s.pool.entries.length →
      s.hiWater = s.pool.entries.length →
      runFrom A s ops = some s' →
      s'.pool.allocCalls = s'.pool.entries.length ∧
        s'.hiWater = s'.pool.entries.length := by
  intro ops
  induction ops with
  | nil =>
    intro s s' _ _ h3 h4 h5
    simp only [runFrom, Option.some.injEq] at h5
    subst h5
    exact ⟨h3, h4⟩
  | cons op ops ih =>
    intro s s' h1 h2 h3 h4 h5
    simp only [runFrom] at h5
    cases hstep : step A s op with
    | none => simp only [hstep] at h5; cases h5
    | some s1 =>
      simp only [hstep] at h5
      have hlt : s.pool.entries.length < FREE_LIST_END := by
        simp only [List.length_cons] at h2
        omega
      obtain ⟨hi1, hle1⟩ := step_inv A s s1 op h1 hlt hstep
      obtain ⟨h3', h4'⟩ := step_count A s s1 op h1 hok hstep h3 h4
      exact ih s1 s' hi1 (by simp only [List.length_cons] at h2 ⊢; omega) h3' h4' h5

theorem lease_panic {T E : Type} (A : Nat → Except E T) (p : PoolState T)
    (hfh : p.free_head ≠ FREE_LIST_END) (hg : p.entries[p.free_head]? = none) :
    lease A p = none := by
  simp [lease, hfh, hg]

theorem lease_entries {T E : Type} (A : Nat → Except E T) (p : PoolState T)
    (r : PoolState T × Except E Nat) (h : lease A p = some r) :
    p.entries.length ≤ r.1.entries.length ∧
    ∀ i, i < p.entries.length → bufferAt r.1 i = bufferAt p i := by
  by_cases hfh : p.free_head = FREE_LIST_END
  · cases hA : A p.allocCalls with
    | error err =>
      rw [lease_alloc_error A p err hfh hA] at h
      simp only [Option.some.injEq] at h
      subst h
      exact ⟨Nat.le_refl _, fun i _ => rfl⟩
    | ok buf =>
      rw [lease_alloc_ok A p buf hfh hA] at h
      simp only [Option.some.injEq] at h
      subst h
      constructor
      · simp
      · intro i hi
        show ((p.entries ++ _)[i]?).map _ = _
        rw [List.getElem?_append_left hi]
        rfl
  · cases hg : p.entries[p.free_head]? with
    | none =>
      rw [lease_panic A p hfh hg] at h
      cases h
    | some e =>
      rw [lease_free_branch A p e hfh hg] at h
      simp only [Option.some.injEq] at h
      subst h
      constructor
      · simp
      · intro i hi
        by_cases hif : i = p.free_head
        · simp only [bufferAt]
          rw [hif, List.getElem?_set_self (hif ▸ hi), hg]
          rfl
        · simp only [bufferAt]
          rw [List.getElem?_set_ne (fun hc => hif hc.symm)]

theorem leaseDrop_entries {T : Type} (p p' : PoolState T) (i : Nat)
    (h : leaseDrop p i = some p') :
    p'.entries.length = p.entries.length ∧
    ∀ j, j < p.entries.length → bufferAt p' j = bufferAt p j := by
  cases hg : p.entries[i]? with
  | none => exact absurd h (by simp [leaseDrop, hg])
  | some e =>
    rw [leaseDrop_some p i e hg] at h
    simp only [Option.some.injEq] at h
    subst h
    refine ⟨by simp, ?_⟩
    intro j hj
    by_cases hij : j = i
    · simp only [bufferAt]
      rw [hij, List.getElem?_set_self (hij ▸ hj), hg]
      rfl
    · simp only [bufferAt]
      rw [List.getElem?_set_ne (fun hc => hij hc.symm)]

theorem step_buffers {T E : Type} (A : Nat → Except E T) (s s' : RunState T) (op : Op)
    (hstep : step A s op = some s') :
    s.pool.entries.length ≤ s'.pool.entries.length ∧
    ∀ i, i < s.pool.entries.length → bufferAt s'.pool i = bufferAt s.pool i := by
  cases op with
  | acquire =>
    rw [step] at hstep
    cases hl : lease A s.pool with
    | none => rw [hl] at hstep; cases hstep
    | some r =>
      obtain ⟨hle, hbuf⟩ := lease_entries A s.pool r hl
      rw [hl] at hstep
      obtain ⟨p, res⟩ := r
      cases res with
      | error err =>
        simp only [Option.some.injEq] at hstep
        subst hstep
        exact ⟨hle, hbuf⟩
      | ok idx =>
        simp only [Option.some.injEq] at hstep
        subst hstep
        exact ⟨hle, hbuf⟩
  | release i =>
    rw [step] at hstep
    split at hstep
    case isFalse => cases hstep
    case isTrue hi =>
      cases hd : leaseDrop s.pool i with
      | none => rw [hd] at hstep; cases hstep
      | some p =>
        rw [hd] at hstep
        simp only [Option.some.injEq] at hstep
        subst hstep
        obtain ⟨hlen, hbuf⟩ := leaseDrop_entries s.pool p i hd
        exact ⟨Nat.le_of_eq hlen.symm, hbuf⟩

theorem runFrom_buffers {T E : Type} (A : Nat → Except E T) :
    ∀ (ops : List Op) (s s' : RunState T), runFrom A s ops = some s' →
      s.pool.entries.length ≤ s'.pool.entries.length ∧
      ∀ i, i < s.pool.entries.length → bufferAt s'.pool i = bufferAt s.pool i := by
  intro ops
  induction ops with
  | nil =>
    intro s s' h
    simp only [runFrom, Option.some.injEq] at h
    subst h
    exact ⟨Nat.le_refl _, fun _ _ => rfl⟩
  | cons op ops ih =>
    intro s s' h
    simp only [runFrom] at h
    cases hstep : step A s op with
    | none => simp only [hstep] at h; cases h
    | some s1 =>
      simp only [hstep] at h
      obtain ⟨hle1, hbuf1⟩ := step_buffers A s s1 op hstep
      obtain ⟨hle2, hbuf2⟩ := ih s1 s' h
      refine ⟨Nat.le_trans hle1 hle2, ?_⟩
      intro i hi
      rw [hbuf2 i (Nat.lt_of_lt_of_le hi hle1), hbuf1 i hi]

theorem inv_freeListInv {T : Type} (s : RunState T) (hInv : Inv s) :
    FreeListInv s.pool s.live := by
  obtain ⟨l, hfl, hnd, hlt, hiff⟩ := hInv.free_some
  simp only [FreeListInv, hfl]
  exact ⟨hnd, hlt, hiff, hInv.live_nodup⟩

/-! ### The claims -/

/-- C1: Allocation minimality.  Over any trace of lease/release operations
with an always-successful allocator, the total number of allocator
invocations equals the high-water mark of simultaneously outstanding
leases (not the number of acquires); and on the concrete scenario
(acquire A, acquire B, release A, acquire C, release B, release C over a
capacity-3 allocator) exactly 2 allocator invocations occur in total and
the acquires are issued slab indices 0, 1, 0 — the third acquire (C)
receives index 0, the identity the first acquire (A) held. -/
theorem C1_allocation_minimality :
    (∀ (T E : Type) (A : Nat → Except E T) (ops : List Op) (s : RunState T),
        (∀ n, ∃ b, A n = Except.ok b) → ops.length ≤ FREE_LIST_END →
        run A ops = some s → s.pool.allocCalls = s.hiWater) ∧
    (run A3 scenarioOps).map (fun s => (s.pool.allocCalls, s.issued)) =
      some (2, [0, 1, 0]) := by
  constructor
  · intro T E A ops s hok hops hrun
    have h := runFrom_count A hok ops (initState T) s (inv_init T)
      (by simpa [initState, PoolState.new] using hops) rfl rfl hrun
    exact h.1.trans h.2.symm
  · rfl

/-- Witness for C1: the universal part applied to the always-ok allocator
on the trace acquire, acquire, release 1, acquire. -/
theorem C1_allocation_minimality_witness :
    sW.pool.allocCalls = sW.hiWater :=
  C1_allocation_minimality.1 Nat Unit Aok opsW sW (fun n => ⟨n, rfl⟩) (by decide) rfl

/-- C2: Free-list integrity and lease exclusivity.  In every state
reachable from `BufferPool::new` by a trace of lease/release operations,
the chain of `next_free` links from `free_head` is finite, acyclic and
terminates at the sentinel (`walkFree` returns `some`), the visited
indices are exactly the entry indices not governed by a live lease, are
pairwise distinct and in range, and the live indices are pairwise
distinct (at most one live lease governs a given index). -/
theorem C2_free_list_integrity {T E : Type} (A : Nat → Except E T) (ops : List Op)
    (s : RunState T) (hops : ops.length ≤ FREE_LIST_END) (hrun : run A ops = some s) :
    FreeListInv s.pool s.live :=
  inv_freeListInv s (run_inv A ops s hops hrun).1

/-- Witness for C2: the state after the concrete six-operation scenario. -/
theorem C2_free_list_integrity_witness :
    FreeListInv ((run A3 scenarioOps).getD (initState Nat)).pool
      ((run A3 scenarioOps).getD (initState Nat)).live :=
  C2_free_list_integrity A3 scenarioOps _ (by decide) rfl

/-- C3: LIFO reuse.  If the lease holding index `i` is dropped, the next
`lease()` call (with no intervening release) returns index `i`: the drop
pushes `i` on the head of the free list and `lease()` pops the head. -/
theorem C3_lifo_reuse {T E : Type} (A : Nat → Except E T) (p p' : PoolState T) (i : Nat)
    (hi : i ≠ FREE_LIST_END) (hdrop : leaseDrop p i = some p') :
    (lease A p').map Prod.snd = some (Except.ok i) := by
  cases hg : p.entries[i]? with
  | none => exact absurd hdrop (by simp [leaseDrop, hg])
  | some e =>
    rw [leaseDrop_some p i e hg] at hdrop
    simp only [Option.some.injEq] at hdrop
    subst hdrop
    have hilt : i < p.entries.length := (List.getElem?_eq_some_iff.mp hg).1
    rw [lease_free_branch A _ { e with next_free := p.free_head } hi
      (by simpa using List.getElem?_set_self hilt)]
    rfl

/-- Witness for C3: dropping index 0 on a one-entry pool and leasing
again returns index 0. -/
theorem C3_lifo_reuse_witness :
    (lease Aok ((leaseDrop oneLive.pool 0).getD (PoolState.new Nat))).map Prod.snd =
      some (Except.ok 0) :=
  C3_lifo_reuse Aok oneLive.pool ((leaseDrop oneLive.pool 0).getD (PoolState.new Nat)) 0
    (by decide) rfl

/-- C4: Allocation-failure atomicity.  When the free list is empty and
the allocator fails, `lease()` returns that same error unchanged, the
entries vector and `free_head` are unmodified, and no lease is created
(the result carries the error, not an index). -/
theorem C4_alloc_failure_atomic {T E : Type} (A : Nat → Except E T) (p : PoolState T)
    (err : E) (hfh : p.free_head = FREE_LIST_END)
    (herr : A p.allocCalls = Except.error err) :
    (lease A p).map Prod.snd = some (Except.error err) ∧
    (lease A p).map (fun r => r.1.entries) = some p.entries ∧
    (lease A p).map (fun r => r.1.free_head) = some p.free_head := by
  rw [lease_alloc_error A p err hfh herr]
  exact ⟨rfl, rfl, rfl⟩

/-- Witness for C4: a fresh pool with an always-failing allocator. -/
theorem C4_alloc_failure_atomic_witness :
    ((lease (fun _ => Except.error 7) (PoolState.new Nat)).map Prod.snd =
        some (Except.error 7) ∧
      (lease (fun _ => Except.error 7) (PoolState.new Nat)).map (fun r => r.1.entries) =
        some (PoolState.new Nat).entries ∧
      (lease (fun _ => Except.error 7) (PoolState.new Nat)).map (fun r => r.1.free_head) =
        some (PoolState.new Nat).free_head) :=
  C4_alloc_failure_atomic (fun _ => Except.error 7) (PoolState.new Nat) 7 rfl rfl

/-- C5: Resize ratchet.  `Resize::new_with_size` clamps the logical length
to `min(buf.size(), requested)`; `Resize::resize` clamps to
`min(current, requested)`, so the length never increases across resize
calls; concretely, over a capacity-10 buffer, `new_with_size` to 6 yields
length 6, a subsequent resize to 8 leaves it 6, and a resize to 3 yields
3. -/
theorem C5_resize_ratchet :
    (∀ (B : Type) [Buffer B] (b : B) (n : Nat),
        (Resize.new_with_size b n).len = Nat.min (Buffer.size b) n) ∧
    (∀ (B : Type) (r : Resize B) (n : Nat), (Resize.resize r n).len = Nat.min r.len n) ∧
    (∀ (B : Type) (r : Resize B) (n : Nat), (Resize.resize r n).len ≤ r.len) ∧
    (Resize.new_with_size cap10 6).len = 6 ∧
    ((Resize.new_with_size cap10 6).resize 8).len = 6 ∧
    (((Resize.new_with_size cap10 6).resize 8).resize 3).len = 3 := by
  refine ⟨fun B _ b n => rfl, fun B r n => rfl, fun B r n => Nat.min_le_left _ _,
    rfl, rfl, rfl⟩

/-- C6 counterexample: `reset()` on a `Resize` view does not restore the
view's construction-time logical length (6) nor the capacity (10); the
clamped length stays at its current value 3. -/
theorem C6_reset_counterexample :
    Buffer.size (Buffer.reset ((Resize.new_with_size cap10 6).resize 3)) = 3 ∧
    Buffer.size (Buffer.reset ((Resize.new_with_size cap10 6).resize 3)) ≠ 6 ∧
    Buffer.size (Buffer.reset ((Resize.new_with_size cap10 6).resize 3)) ≠ 10 := by
  refine ⟨rfl, by decide, by decide⟩

/-- C6 (amended): `reset()` restores default logical content/length
without releasing backing storage: it is a no-op for the fixed-size array
and boxed-slice kinds, it clears the logical length of the growable
`Vec<u8>` kind (`size()` returns 0 afterwards), and for the `Resize`
wrapper it forwards `reset` to the inner buffer while leaving the view's
clamped logical length unchanged (it does not restore the view's
construction-time length). -/
theorem C6_reset_semantics :
    (∀ (N : Nat) (a : ArrayU8 N), Buffer.reset a = a) ∧
    (∀ (b : BoxU8), Buffer.reset b = b) ∧
    (∀ (v : VecU8), Buffer.size (Buffer.reset v) = 0) ∧
    (∀ (B : Type) [Buffer B] (r : Resize B),
        (Buffer.reset r).len = r.len ∧ (Buffer.reset r).buf = Buffer.reset r.buf) := by
  exact ⟨fun N a => rfl, fun b => rfl, fun v => rfl, fun B _ r => ⟨rfl, rfl⟩⟩

/-- C7: The pool never shrinks.  Across any trace of lease/release
operations from any starting state, the length of the entries vector
never decreases, and the buffer stored in every already-existing slot is
still there unchanged (releases only rewrite `next_free` and `free_head`;
no entry is ever removed). -/
theorem C7_pool_never_shrinks {T E : Type} (A : Nat → Except E T) (ops : List Op)
    (s0 s : RunState T) (hrun : runFrom A s0 ops = some s) :
    s0.pool.entries.length ≤ s.pool.entries.length ∧
    ∀ i, i < s0.pool.entries.length → bufferAt s.pool i = bufferAt s0.pool i :=
  runFrom_buffers A ops s0 s hrun

/-- Witness for C7: on a one-entry pool holding buffer 5, a release
followed by an acquire leaves the slot's buffer in place. -/
theorem C7_pool_never_shrinks_witness :
    oneLive.pool.entries.length ≤ s7.pool.entries.length ∧
    bufferAt s7.pool 0 = bufferAt oneLive.pool 0 :=
  ⟨(C7_pool_never_shrinks Aok [Op.release 0, Op.acquire] oneLive s7 rfl).1,
    (C7_pool_never_shrinks Aok [Op.release 0, Op.acquire] oneLive s7 rfl).2 0 (by decide)⟩

/-- C8: Orphan tolerance (variant A, modelled from the spec).  Dropping a
lease after all pool handles are gone (the weak back-reference resolves
to `none`) is a total operation: no failure, no state change — the buffer
is simply discarded; while the pool state is alive the same drop recycles
the buffer onto the idle stack; and the full scenario (construct a pool,
acquire a lease from the empty idle stack, drop all pool handles, drop
the lease) proceeds without error. -/
theorem C8_orphan_tolerance :
    (∀ (T : Type) (b : T), leaseDropA b (none : Option (PoolAState T)) = none) ∧
    (∀ (T : Type) (b : T) (st : PoolAState T),
        leaseDropA b (some st) = some { idle := b :: st.idle }) ∧
    leaseA (Except.ok 42 : Except Unit Nat) ({ idle := [] } : PoolAState Nat) =
      Except.ok ({ idle := [] }, (42 : Nat)) ∧
    leaseDropA (42 : Nat) (none : Option (PoolAState Nat)) = none := by
  exact ⟨fun T b => rfl, fun T b st => rfl, rfl, rfl⟩

/-- C9: Used-entry sentinel invariant.  In every reachable state, every
entry governed by a live lease has `next_free = FREE_LIST_END`: `lease()`
overwrites the popped entry's link with the sentinel, appended entries
are created with it, and both `lease()` and lease drop preserve the
property for the other live entries. -/
theorem C9_used_entry_sentinel {T E : Type} (A : Nat → Except E T) (ops : List Op)
    (s : RunState T) (hops : ops.length ≤ FREE_LIST_END) (hrun : run A ops = some s) :
    ∀ i ∈ s.live, nextFreeAt s.pool i = some FREE_LIST_END :=
  (run_inv A ops s hops hrun).1.live_sentinel

/-- Witness for C9: after acquire, acquire, release 0, acquire, the live
lease on index 0 has the sentinel link. -/
theorem C9_used_entry_sentinel_witness :
    nextFreeAt sW.pool 0 = some FREE_LIST_END :=
  C9_used_entry_sentinel Aok opsW sW (by decide) rfl 0 (by decide)

theorem freeList_head_shape {T : Type} (p : PoolState T) (l : List Nat)
    (hfl : freeList p = some l) (hfh : p.free_head ≠ FREE_LIST_END) :
    ∃ e, p.entries[p.free_head]? = some e := by
  simp only [freeList] at hfl
  rcases hL : p.entries.length with _ | k
  · rw [hL, walkFree_zero_ne _ hfh] at hfl
    cases hfl
  · rw [hL, walkFree_succ_ne _ k hfh] at hfl
    cases hg : p.entries[p.free_head]? with
    | none =>
      rw [hg] at hfl
      exact absurd hfl (by simp)
    | some e => exact ⟨e, rfl⟩

/-- C10: In-bounds indexing safety.  Under the free-list-integrity
invariant and the invariant that every live lease's index is in bounds,
none of the slab indexing operations panics: `lease()` returns a value
(not the `none` that models the out-of-bounds panic), and for every live
index both `Lease::drop` and the `Deref`/`DerefMut` buffer lookup return
values. -/
theorem C10_indexing_in_bounds {T E : Type} (A : Nat → Except E T) (s : RunState T)
    (hfi : FreeListInv s.pool s.live) (hlt : ∀ i ∈ s.live, i < s.pool.entries.length) :
    (lease A s.pool).isSome = true ∧
    ∀ i ∈ s.live, (leaseDrop s.pool i).isSome = true ∧ (bufferAt s.pool i).isSome = true := by
  constructor
  · by_cases hfh : s.pool.free_head = FREE_LIST_END
    · cases hA : A s.pool.allocCalls with
      | error err => rw [lease_alloc_error A s.pool err hfh hA]; rfl
      | ok buf => rw [lease_alloc_ok A s.pool buf hfh hA]; rfl
    · cases hfl : freeList s.pool with
      | none => simp only [FreeListInv, hfl] at hfi
      | some l =>
        obtain ⟨e, hg⟩ := freeList_head_shape s.pool l hfl hfh
        rw [lease_free_branch A s.pool e hfh hg]
        rfl
  · intro i hi
    have hilt := hlt i hi
    have hg : s.pool.entries[i]? = some s.pool.entries[i] := List.getElem?_eq_getElem hilt
    constructor
    · rw [leaseDrop_some s.pool i _ hg]
      rfl
    · rw [bufferAt, hg]
      rfl

/-- Witness for C10: the invariant state after acquire, acquire,
release 0, acquire; leasing and dropping/dereferencing live index 0 all
stay in bounds. -/
theorem C10_indexing_in_bounds_witness :
    (lease Aok sW.pool).isSome = true ∧
    (leaseDrop sW.pool 0).isSome = true ∧
    (bufferAt sW.pool 0).isSome = true := by
  have hinv := (run_inv Aok opsW sW (by decide) rfl).1
  have h := C10_indexing_in_bounds Aok sW (inv_freeListInv sW hinv) hinv.live_lt
  exact ⟨h.1, (h.2 0 (by decide)).1, (h.2 0 (by decide)).2⟩

end Bufpool
